import Mathlib

/-
  Verification development for tm-sim (src/tm-sim.c), a nondeterministic
  Turing machine simulator with a paged copy-on-write tape.

  Shallow embedding conventions:
  - C `char` tape symbols are modelled as `Nat` byte values (the source
    indexes its transition table by `(unsigned char)` and all symbols of
    interest are ASCII); `BLANK` is 95, the code of the underscore.
  - Move letters and the verdict characters keep the type `Char` since no
    arithmetic is performed on them.
  - The per-branch page chain (a doubly linked list in C) is a `List Page`
    ordered left to right; `first_page` is the list head and the C pointers
    `head_page` / `prev` / `next` become the index `headPage` into the list.
  - Page memory buffers (`char * mem`, shared between page descriptors of
    different branches) live in an explicit store `Heap`; a page holds the
    index of its buffer, and buffer allocation appends to the store.
  - A C function that can dereference a null `head_page` returns `Option`,
    with `none` marking the undefined behaviour.
  - The scheduling loop `tm_compute_rq` consumes explicit fuel, one unit
    per loop iteration; `none` means the fuel ran out or the loop crashed.
-/

namespace TmSim

/-- PAGE_SIZE from the source (512). -/
def PAGE_SIZE : Nat := 512

/-- MAX_SIZE_LINEAR_SEARCH from the source (4). -/
def MAX_SIZE_LINEAR_SEARCH : Int := 4

/-- INITIAL_STATE from the source (0). -/
def INITIAL_STATE : Nat := 0

/-- BLANK is the byte value of the underscore character. -/
def BLANK : Nat := 95

/-- UCHAR_MAX, the largest unsigned char value. -/
def UCHAR_MAX : Nat := 255

/-- SYM_ACCEPT from the source. -/
def SYM_ACCEPT : Char := '1'

/-- SYM_REFUSE from the source. -/
def SYM_REFUSE : Char := '0'

/-- SYM_UNDET from the source. -/
def SYM_UNDET : Char := 'U'

/-- Transition right part, struct tr_output: next state, written symbol,
move letter.  The C `next` link is replaced by `List` structure. -/
structure TrOutput where
  state : Nat
  output : Nat
  move : Char
deriving DecidableEq, Repr

/-- One row of a state's transition table, struct tr_input: the input
symbol and the linked list of right parts. -/
structure TrInput where
  input : Nat
  transitions : List TrOutput
deriving DecidableEq, Repr

/-- struct state: acceptance flag and the sorted row array.  The C field
tr_inputs_count is the length of the list. -/
structure TmState where
  is_acc : Bool
  tr_inputs : List TrInput
deriving DecidableEq, Repr

/-- struct turing_machine (without the runqueue pointer, which is threaded
explicitly through the engine functions). -/
structure TM where
  max_steps : Nat
  states : List TmState
deriving DecidableEq, Repr

/-- struct page: the `private` flag and the buffer id of its `mem`
pointer.  The `prev` / `next` links are the list order of `Branch.pages`. -/
structure Page where
  priv : Bool
  mem : Nat
deriving DecidableEq, Repr

/-- The store of page memory buffers; a buffer id is an index into
`bufs`.  Two page descriptors holding the same id share memory, exactly as
two C `page_t` values holding the same `mem` pointer do. -/
structure Heap where
  bufs : List (List Nat)
deriving DecidableEq, Repr

/-- Dereference a buffer id. -/
def Heap.get (hp : Heap) (i : Nat) : List Nat :=
  hp.bufs.getD i []

/-- malloc of a fresh buffer: returns the new store and the fresh id. -/
def Heap.alloc (hp : Heap) (buf : List Nat) : Heap × Nat :=
  (⟨hp.bufs ++ [buf]⟩, hp.bufs.length)

/-- In-place update of the buffer with id `i`. -/
def Heap.setBuf (hp : Heap) (i : Nat) (buf : List Nat) : Heap :=
  ⟨hp.bufs.set i buf⟩

/-- struct branch.  `ndParent` carries, for a freshly cloned branch, the
page chain and head index of the parent at clone time (the C code stores a
pointer to the parent branch; the parent's chain cannot change before the
clone executes, because the LIFO runqueue runs the clone first). -/
structure Branch where
  ndParent : Option (List Page × Option Nat)
  state : Nat
  tr : Option TrOutput
  pages : List Page
  headPage : Option Nat
  headPos : Nat
  steps : Nat
deriving DecidableEq, Repr

/-- A fresh blank page buffer, as initialised by page_create when handed a
null `mem`. -/
def blankBuf : List Nat := List.replicate PAGE_SIZE BLANK

/-- head_read: the symbol under the head, BLANK if no page is allocated.
The C function receives the store and the branch by pointer and returns
them untouched; the triple makes that frame explicit. -/
def head_read (hp : Heap) (b : Branch) : Heap × Branch × Nat :=
  match b.headPage with
  | none => (hp, b, BLANK)
  | some i =>
      (hp, b, (hp.get (b.pages.getD i { priv := true, mem := 0 }).mem).getD b.headPos BLANK)

/-- head_write: write `c` under the head.  Mirrors the source line by
line: a page fault allocates the first page only when `c` is not BLANK;
then the code dereferences `head_page` unconditionally (`none` models the
null dereference when no page exists and `c` is BLANK); a write of the
symbol already present is skipped; a write to a shared page first copies
the memory to a fresh private buffer (page_make_private) and then mutates
only the copy. -/
def head_write (hp : Heap) (b : Branch) (c : Nat) : Option (Heap × Branch) :=
  let pf : Heap × Branch :=
    if b.headPage = none ∧ c ≠ BLANK then
      let a := hp.alloc blankBuf
      (a.1, { b with pages := [{ priv := true, mem := a.2 }], headPage := some 0 })
    else (hp, b)
  match pf.2.headPage with
  | none => none
  | some i =>
      let pg := pf.2.pages.getD i { priv := true, mem := 0 }
      if (pf.1.get pg.mem).getD pf.2.headPos BLANK ≠ c then
        if pg.priv = false then
          let a := pf.1.alloc (pf.1.get pg.mem)
          some (a.1.setBuf a.2 ((a.1.get a.2).set pf.2.headPos c),
            { pf.2 with pages := pf.2.pages.set i { priv := true, mem := a.2 } })
        else
          some (pf.1.setBuf pg.mem ((pf.1.get pg.mem).set pf.2.headPos c), pf.2)
      else
        some pf

/-- head_move: move the head left, right or stay, allocating a fresh
blank page when the move crosses the edge of the chain.  With no page
allocated the C body is skipped entirely. -/
def head_move (hp : Heap) (b : Branch) (move : Char) : Heap × Branch :=
  match b.headPage with
  | none => (hp, b)
  | some i =>
      if move = 'L' then
        if i = 0 ∧ b.headPos = 0 then
          let a := hp.alloc blankBuf
          let b1 := { b with pages := { priv := true, mem := a.2 } :: b.pages }
          (a.1, { b1 with headPage := some 0, headPos := PAGE_SIZE - 1 })
        else if b.headPos = 0 then
          (hp, { b with headPage := some (i - 1), headPos := PAGE_SIZE - 1 })
        else
          (hp, { b with headPos := b.headPos - 1 })
      else if move = 'R' then
        if i = b.pages.length - 1 ∧ b.headPos = PAGE_SIZE - 1 then
          let a := hp.alloc blankBuf
          let b1 := { b with pages := b.pages ++ [({ priv := true, mem := a.2 } : Page)] }
          (a.1, { b1 with headPage := some (i + 1), headPos := 0 })
        else if b.headPos = PAGE_SIZE - 1 then
          (hp, { b with headPage := some (i + 1), headPos := 0 })
        else
          (hp, { b with headPos := b.headPos + 1 })
      else (hp, b)

/-- Dereference a row array at a C int index, as `v[i]` does.  Negative
or out-of-range indices yield a default row; the source never evaluates
such an access on the paths the theorems describe. -/
def idxTI (v : List TrInput) (i : Int) : TrInput :=
  v.getD i.toNat { input := 0, transitions := [] }

/-- The while loop inside search_tr_out used when the range is small:
scan `v[p..r]` left to right for `key`.  The loop is embedded with a
structural fuel argument so that it evaluates by kernel reduction; any
fuel larger than the width of the range gives the loop's real result. -/
def lin_go (v : List TrInput) (key : Nat) : Nat → Int → Int → Option (List TrOutput)
  | 0, _, _ => none
  | fuel + 1, p, r =>
    if p ≤ r then
      if (idxTI v p).input = key then some (idxTI v p).transitions
      else lin_go v key fuel (p + 1) r
    else none

/-- The recursion of search_tr_out, with a structural fuel argument (any
fuel larger than the width `r - p` of the range gives the function's real
result, since each recursive call shrinks the range). -/
def search_go (v : List TrInput) (key : Nat) : Nat → Int → Int → Option (List TrOutput)
  | 0, _, _ => none
  | fuel + 1, p, r =>
    if r < p ∨ key < (idxTI v p).input ∨ key > (idxTI v r).input then none
    else if r - p ≤ MAX_SIZE_LINEAR_SEARCH then lin_go v key (fuel + 1) p r
    else
      if (idxTI v (p + (r - p) / 2)).input = key then
        some (idxTI v (p + (r - p) / 2)).transitions
      else if (idxTI v (p + (r - p) / 2)).input > key then
        search_go v key fuel p (p + (r - p) / 2 - 1)
      else
        search_go v key fuel (p + (r - p) / 2 + 1) r

/-- search_tr_out: hybrid lookup over the sorted row array `v[p..r]`,
linear scan for ranges of at most MAX_SIZE_LINEAR_SEARCH + 1 rows and
binary search otherwise.  Returns the row's successor list, or `none` for
the C null pointer.  The fuel `(r - p).toNat + 1` is sufficient for the
whole recursion. -/
def search_tr_out (v : List TrInput) (p r : Int) (key : Nat) : Option (List TrOutput) :=
  search_go v key ((r - p).toNat + 1) p r

/-- branch_clone: the sibling branch for right part `tr`, sharing the
parent's tape.  Its chain is empty until it executes; `ndParent` records
the parent's chain and head for the deferred branch_memcpy. -/
def branch_clone (parent : Branch) (tr : TrOutput) : Branch :=
  { ndParent := some (parent.pages, parent.headPage),
    state := parent.state,
    tr := some tr,
    pages := [],
    headPage := none,
    headPos := parent.headPos,
    steps := parent.steps }

/-- branch_memcpy: give the branch its own page descriptors, one per
parent page, sharing the parent's buffers (`private = false`), with the
head on the page corresponding to the parent's head page. -/
def branch_memcpy (b : Branch) : Option (List Page × Option Nat) → Branch
  | none => b
  | some pr =>
      { b with pages := pr.1.map (fun p => { priv := false, mem := p.mem }),
               headPage := pr.2 }

/-- The push loop of tm_step: rq_push each clone, in order, on top of the
queue. -/
def pushAll (rq : List Branch) (clones : List Branch) : List Branch :=
  clones.foldl (fun q c => c :: q) rq

/-- The default state value used for an out-of-range state index (the
source never takes such an index on a well-formed machine). -/
def defState : TmState := { is_acc := false, tr_inputs := [] }

/-- The second half of tm_step: look up the successors of (state, symbol
under head).  With no successor the quadruple carries the halt state;
otherwise the first successor becomes the branch's pending transition and
the remaining ones become clones to be pushed, in list order. -/
def tm_fanout (tm : TM) (hp : Heap) (b : Branch) :
    Heap × Branch × List Branch × Option TmState :=
  let s := tm.states.getD b.state defState
  let input := (head_read hp b).2.2
  match (search_tr_out s.tr_inputs 0 ((s.tr_inputs.length : Int) - 1) input).getD [] with
  | [] => (hp, b, [], some s)
  | t :: ts =>
      let b2 := { b with tr := some t }
      (hp, b2, ts.map (fun x => branch_clone b2 x), none)

/-- tm_step: execute the branch's pending transition if any (copying the
parent's page descriptors first for a fresh clone, then state change,
head_write, head_move, step increment), then the successor fan-out.
`none` models the null dereference inherited from head_write. -/
def tm_step (tm : TM) (hp : Heap) (b : Branch) :
    Option (Heap × Branch × List Branch × Option TmState) :=
  match b.tr with
  | none => some (tm_fanout tm hp b)
  | some tr =>
      let b1 := if b.ndParent.isSome then
          { branch_memcpy b b.ndParent with ndParent := none }
        else b
      let b2 := { b1 with state := tr.state }
      match head_write hp b2 tr.output with
      | none => none
      | some hb =>
          let m := head_move hb.1 hb.2 tr.move
          some (tm_fanout tm m.1 { m.2 with steps := m.2.steps + 1 })

/-- tm_compute_rq: the scheduling loop.  One unit of fuel per iteration;
`none` means fuel exhaustion or the crash propagated from tm_step.  A
branch whose step counter equals max_steps is preempted; a halt state
accepts only when it is accepting and has an empty row array
(tr_inputs_count == 0); otherwise the dead branch is dequeued. -/
def tm_compute_rq (tm : TM) : Nat → Heap → List Branch → Bool → Option Char
  | 0, _, _, _ => none
  | _ + 1, _, [], has_preempted =>
      some (if has_preempted then SYM_UNDET else SYM_REFUSE)
  | fuel + 1, hp, b :: rest, has_preempted =>
      if b.steps = tm.max_steps then
        tm_compute_rq tm fuel hp rest true
      else
        match tm_step tm hp b with
        | none => none
        | some (hp2, _, _, some s) =>
            if s.tr_inputs = [] ∧ s.is_acc = true then some SYM_ACCEPT
            else tm_compute_rq tm fuel hp2 rest has_preempted
        | some (hp2, b2, clones, none) =>
            tm_compute_rq tm fuel hp2 (pushAll (b2 :: rest) clones) has_preempted

/-- The input-loading loop of tm_run: head_write each input symbol and
move right.  `none` models the null dereference when the first symbol
written is BLANK. -/
def load_input (hp : Heap) (b : Branch) : List Nat → Option (Heap × Branch)
  | [] => some (hp, b)
  | c :: cs =>
      match head_write hp b c with
      | none => none
      | some hb =>
          let m := head_move hb.1 hb.2 'R'
          load_input m.1 m.2 cs

/-- The root branch created by tm_run. -/
def rootBranch : Branch :=
  { ndParent := none, state := INITIAL_STATE, tr := none,
    pages := [], headPage := none, headPos := 0, steps := 0 }

/-- tm_run: load the input tape, rewind the head to offset 0 of the first
page, push the root branch and run the scheduling loop. -/
def tm_run (fuel : Nat) (tm : TM) (input : List Nat) : Option Char :=
  if tm.states = [] then some SYM_REFUSE
  else
    match load_input ⟨[]⟩ rootBranch input with
    | none => none
    | some hb =>
        let b1 := { hb.2 with
          headPage := if hb.2.pages = [] then none else some 0, headPos := 0 }
        tm_compute_rq tm fuel hb.1 [b1] false

/-- struct state_temp for one state during loading: the 256-cell array of
successor-list heads indexed by the (unsigned char) input, and the count
of distinct inputs. -/
structure StateTemp where
  tr_inputs : Nat → List TrOutput
  tr_inputs_count : Nat

/-- state_temp_add_transition: put the new right part at the head of the
list for `input`, bumping the distinct-input count if the cell was null. -/
def state_temp_add_transition (st : StateTemp) (input : Nat) (q_out : Nat)
    (output : Nat) (move : Char) : StateTemp :=
  { tr_inputs := fun c =>
      if c = input then { state := q_out, output := output, move := move } :: st.tr_inputs input
      else st.tr_inputs c,
    tr_inputs_count :=
      if st.tr_inputs input = [] then st.tr_inputs_count + 1 else st.tr_inputs_count }

/-- A fresh state_temp, all cells null. -/
def emptyTemp : StateTemp := { tr_inputs := fun _ => [], tr_inputs_count := 0 }

/-- The sequence of state_temp_add_transition calls load_transitions makes
for one state: each entry is the input symbol and the right part. -/
def load_temp (ins : List (Nat × TrOutput)) : StateTemp :=
  ins.foldl
    (fun st pr => state_temp_add_transition st pr.1 pr.2.state pr.2.output pr.2.move)
    emptyTemp

/-- The row-array construction of load_transitions: scan the 256 cells in
ascending input order and keep the non-null successor lists verbatim. -/
def build_tr_inputs (st : StateTemp) : List TrInput :=
  (List.range (UCHAR_MAX + 1)).filterMap (fun i =>
    if st.tr_inputs i = [] then none
    else some { input := i, transitions := st.tr_inputs i })

/-- The machine of spec scenario S5: transition 0 --BLANK/BLANK,S--> 1,
state 1 accepting, max 5 steps. -/
def tmS5 : TM :=
  { max_steps := 5,
    states :=
      [ { is_acc := false,
          tr_inputs := [ { input := BLANK,
                           transitions := [ { state := 1, output := BLANK, move := 'S' } ] } ] },
        { is_acc := true, tr_inputs := [] } ] }

/-- A machine whose accepting state 1 has a row for symbol 97 only:
transition 0 --BLANK/120,S--> 1 and 1 --97/97,S--> 1, max 5 steps. -/
def tmAccRow : TM :=
  { max_steps := 5,
    states :=
      [ { is_acc := false,
          tr_inputs := [ { input := BLANK,
                           transitions := [ { state := 1, output := 120, move := 'S' } ] } ] },
        { is_acc := true,
          tr_inputs := [ { input := 97,
                           transitions := [ { state := 1, output := 97, move := 'S' } ] } ] } ] }

/-- Two right parts inserted, in this order, for the same state and the
same input symbol 97. -/
def insPair : List (Nat × TrOutput) :=
  [ (97, { state := 1, output := 97, move := 'R' }),
    (97, { state := 2, output := 98, move := 'L' }) ]

/-- A branch with no allocated page, as the root branch of a run on the
empty input is just before its second step. -/
def blankBranch : Branch :=
  { ndParent := none, state := 0, tr := none,
    pages := [], headPage := none, headPos := 0, steps := 0 }

/-- A store holding one blank page buffer. -/
def hpOne : Heap := ⟨[blankBuf]⟩

/-- A branch owning one private page (buffer 0), head at offset 0. -/
def bOne : Branch :=
  { ndParent := none, state := 0, tr := none,
    pages := [{ priv := true, mem := 0 }], headPage := some 0, headPos := 0, steps := 0 }

/-- A branch whose single page shares buffer 0 with other branches
(`private = false`), head at offset 0. -/
def bShared : Branch :=
  { ndParent := none, state := 0, tr := none,
    pages := [{ priv := false, mem := 0 }], headPage := some 0, headPos := 0, steps := 0 }

/-- A machine with max_steps 0 and no states. -/
def tmZero : TM := { max_steps := 0, states := [] }

/-- A store whose single buffer holds symbol 120 at offset 0 and blanks
elsewhere. -/
def hpW : Heap := ⟨[blankBuf.set 0 120]⟩

/-- A branch in state 1 with one private page (buffer 0), head at offset
0, one step taken and no pending transition. -/
def bW : Branch :=
  { ndParent := none, state := 1, tr := none,
    pages := [{ priv := true, mem := 0 }], headPage := some 0, headPos := 0, steps := 1 }

/-- Sortedness of a row array: inputs strictly increase left to right
(this also makes rows unique by input). -/
def RowsSorted (v : List TrInput) : Prop :=
  List.Pairwise (fun a b => a.input < b.input) v

/-- A concrete sorted two-row array. -/
def vRows : List TrInput :=
  [ { input := 97, transitions := [ { state := 1, output := 97, move := 'R' } ] },
    { input := 98, transitions := [ { state := 2, output := 98, move := 'L' } ] } ]

/-- getD after setting a different index is unchanged. -/
theorem getD_set_ne {α : Type} (l : List α) (i j : Nat) (x d : α) (h : i ≠ j) :
    (l.set i x).getD j d = l.getD j d := by
  by_cases hj : j < l.length
  · rw [List.getD_eq_getElem _ _ (by simpa using hj), List.getD_eq_getElem _ _ hj]
    exact List.getElem_set_ne h _
  · have hj2 : l.length ≤ j := Nat.le_of_not_lt hj
    rw [List.getD_eq_default _ _ (by simpa using hj2), List.getD_eq_default _ _ hj2]

/-- getD at a just-set valid index returns the new value. -/
theorem getD_set_self {α : Type} (l : List α) (i : Nat) (x d : α) (h : i < l.length) :
    (l.set i x).getD i d = x := by
  rw [List.getD_eq_getElem _ _ (by simpa using h)]
  exact List.getElem_set_self _

/-- Allocation does not disturb existing buffers. -/
theorem Heap.get_alloc_lt (hp : Heap) (buf : List Nat) (j : Nat)
    (h : j < hp.bufs.length) : (hp.alloc buf).1.get j = hp.get j := by
  simp only [Heap.alloc, Heap.get]
  exact List.getD_append _ _ _ _ h

/-- The fresh id of an allocation holds the allocated buffer. -/
theorem Heap.get_alloc_self (hp : Heap) (buf : List Nat) :
    (hp.alloc buf).1.get hp.bufs.length = buf := by
  simp only [Heap.alloc, Heap.get]
  rw [List.getD_append_right _ _ _ _ (Nat.le_refl _)]
  simp

/-- idxTI at a valid Int index is the list element there. -/
theorem idxTI_eq_get (v : List TrInput) (i : Int) (h : i.toNat < v.length) :
    idxTI v i = v.get ⟨i.toNat, h⟩ := by
  unfold idxTI
  rw [List.getD_eq_getElem _ _ h, List.get_eq_getElem]

/-- In a sorted row array, inputs strictly increase with the index. -/
theorem rows_lt_int (v : List TrInput) (hv : RowsSorted v) (a b : Int)
    (h0 : 0 ≤ a) (hab : a < b) (hb : b < (v.length : Int)) :
    (idxTI v a).input < (idxTI v b).input := by
  have han : a.toNat < v.length := by omega
  have hbn : b.toNat < v.length := by omega
  rw [idxTI_eq_get v a han, idxTI_eq_get v b hbn]
  have := List.pairwise_iff_getElem.mp hv a.toNat b.toNat han hbn (by omega)
  simpa [List.get_eq_getElem] using this

/-- In a sorted row array, inputs weakly increase with the index. -/
theorem rows_le_int (v : List TrInput) (hv : RowsSorted v) (a b : Int)
    (h0 : 0 ≤ a) (hab : a ≤ b) (hb : b < (v.length : Int)) :
    (idxTI v a).input ≤ (idxTI v b).input := by
  rcases lt_or_eq_of_le hab with h | h
  · exact le_of_lt (rows_lt_int v hv a b h0 h hb)
  · rw [h]

/-- In a sorted row array, the index of a given input is unique. -/
theorem rows_inj_int (v : List TrInput) (hv : RowsSorted v) (a b : Int)
    (ha0 : 0 ≤ a) (ha : a < (v.length : Int)) (hb0 : 0 ≤ b) (hb : b < (v.length : Int))
    (h : (idxTI v a).input = (idxTI v b).input) : a = b := by
  rcases lt_trichotomy a b with hlt | heq | hgt
  · have := rows_lt_int v hv a b ha0 hlt hb
    omega
  · exact heq
  · have := rows_lt_int v hv b a hb0 hgt ha
    omega

/-- The linear scan finds the row holding `key` when one exists in the
range and the fuel covers the range. -/
theorem lin_go_found (v : List TrInput) (key : Nat) (fuel : Nat) :
    ∀ p r i : Int, RowsSorted v → (r + 1 - p).toNat ≤ fuel →
      0 ≤ p → r < (v.length : Int) → p ≤ i → i ≤ r → (idxTI v i).input = key →
      lin_go v key fuel p r = some (idxTI v i).transitions := by
  induction fuel with
  | zero =>
      intro p r i _ hfuel _ _ hpi hir _
      omega
  | succ fuel ih =>
      intro p r i hv hfuel hp0 hr hpi hir hkey
      simp only [lin_go]
      rw [if_pos (show p ≤ r by omega)]
      by_cases hp : (idxTI v p).input = key
      · rw [if_pos hp]
        have : p = i := by
          apply rows_inj_int v hv p i hp0 (by omega) (by omega) (by omega)
          rw [hp, hkey]
        rw [this]
      · rw [if_neg hp]
        have hpi2 : p + 1 ≤ i := by
          rcases lt_or_eq_of_le hpi with h | h
          · omega
          · rw [h] at hp; exact absurd hkey hp
        exact ih (p + 1) r i hv (by omega) (by omega) hr hpi2 hir hkey

/-- The linear scan returns null when no row in the range holds `key`. -/
theorem lin_go_none (v : List TrInput) (key : Nat) (fuel : Nat) :
    ∀ p r : Int, (∀ j : Int, p ≤ j → j ≤ r → (idxTI v j).input ≠ key) →
      lin_go v key fuel p r = none := by
  induction fuel with
  | zero => intro p r _; rfl
  | succ fuel ih =>
      intro p r hno
      simp only [lin_go]
      by_cases hpr : p ≤ r
      · rw [if_pos hpr, if_neg (hno p (le_refl p) hpr)]
        exact ih (p + 1) r (fun j h1 h2 => hno j (by omega) h2)
      · rw [if_neg hpr]

/-- search_go finds the row holding `key` when one exists in the range,
the rows are sorted and the fuel exceeds the range width. -/
theorem search_go_found (v : List TrInput) (key : Nat) (fuel : Nat) :
    ∀ p r i : Int, RowsSorted v → (r - p).toNat < fuel →
      0 ≤ p → r < (v.length : Int) → p ≤ i → i ≤ r → (idxTI v i).input = key →
      search_go v key fuel p r = some (idxTI v i).transitions := by
  induction fuel with
  | zero => intro p r i _ hfuel _ _ _ _ _; omega
  | succ fuel ih =>
      intro p r i hv hfuel hp0 hr hpi hir hkey
      simp only [search_go]
      have hQ : ¬(r < p ∨ key < (idxTI v p).input ∨ key > (idxTI v r).input) := by
        rintro (h | h | h)
        · omega
        · have := rows_le_int v hv p i hp0 hpi (by omega)
          rw [hkey] at this; omega
        · have := rows_le_int v hv i r (by omega) hir hr
          rw [hkey] at this; omega
      rw [if_neg hQ]
      by_cases hlin : r - p ≤ MAX_SIZE_LINEAR_SEARCH
      · rw [if_pos hlin]
        exact lin_go_found v key (fuel + 1) p r i hv (by omega) hp0 hr hpi hir hkey
      · rw [if_neg hlin]
        have hlin4 : ¬(r - p ≤ 4) := by simpa [MAX_SIZE_LINEAR_SEARCH] using hlin
        by_cases hm : (idxTI v (p + (r - p) / 2)).input = key
        · rw [if_pos hm]
          have : p + (r - p) / 2 = i := by
            apply rows_inj_int v hv _ i (by omega) (by omega) (by omega) (by omega)
            rw [hm, hkey]
          rw [this]
        · rw [if_neg hm]
          by_cases hgt : (idxTI v (p + (r - p) / 2)).input > key
          · rw [if_pos hgt]
            have hi2 : i ≤ p + (r - p) / 2 - 1 := by
              by_contra hcon
              have hmi : p + (r - p) / 2 ≤ i := by omega
              have := rows_le_int v hv (p + (r - p) / 2) i (by omega) hmi (by omega)
              rw [hkey] at this; omega
            exact ih p (p + (r - p) / 2 - 1) i hv (by omega) hp0 (by omega) hpi hi2 hkey
          · rw [if_neg hgt]
            have hi2 : p + (r - p) / 2 + 1 ≤ i := by
              by_contra hcon
              have hmi : i ≤ p + (r - p) / 2 := by omega
              have := rows_le_int v hv i (p + (r - p) / 2) (by omega) hmi (by omega)
              rw [hkey] at this; omega
            exact ih (p + (r - p) / 2 + 1) r i hv (by omega) (by omega) hr hi2 hir hkey

/-- search_go returns null when no row in the range holds `key` and the
fuel exceeds the range width. -/
theorem search_go_none (v : List TrInput) (key : Nat) (fuel : Nat) :
    ∀ p r : Int, (∀ j : Int, p ≤ j → j ≤ r → (idxTI v j).input ≠ key) →
      (r - p).toNat < fuel → search_go v key fuel p r = none := by
  induction fuel with
  | zero => intro p r _ hfuel; omega
  | succ fuel ih =>
      intro p r hno hfuel
      simp only [search_go]
      by_cases hQ : r < p ∨ key < (idxTI v p).input ∨ key > (idxTI v r).input
      · rw [if_pos hQ]
      · rw [if_neg hQ]
        have hpr : p ≤ r := by
          by_contra hcon
          exact hQ (Or.inl (by omega))
        by_cases hlin : r - p ≤ MAX_SIZE_LINEAR_SEARCH
        · rw [if_pos hlin]
          exact lin_go_none v key (fuel + 1) p r hno
        · rw [if_neg hlin]
          have hlin4 : ¬(r - p ≤ 4) := by simpa [MAX_SIZE_LINEAR_SEARCH] using hlin
          rw [if_neg (hno (p + (r - p) / 2) (by omega) (by omega))]
          by_cases hgt : (idxTI v (p + (r - p) / 2)).input > key
          · rw [if_pos hgt]
            exact ih p (p + (r - p) / 2 - 1) (fun j h1 h2 => hno j h1 (by omega)) (by omega)
          · rw [if_neg hgt]
            exact ih (p + (r - p) / 2 + 1) r (fun j h1 h2 => hno j (by omega) h2) (by omega)

/-- A member of a cell's filterMap image in build_tr_inputs has the cell
index as input, the cell's list as successors, and the cell is non-null. -/
theorem mem_build_aux (st : StateTemp) (i : Nat) (row : TrInput)
    (h : row ∈ (if st.tr_inputs i = [] then none
        else some { input := i, transitions := st.tr_inputs i } : Option TrInput)) :
    row.input = i ∧ row.transitions = st.tr_inputs i ∧ st.tr_inputs i ≠ [] := by
  by_cases hc : st.tr_inputs i = []
  · rw [if_pos hc] at h
    cases h
  · rw [if_neg hc] at h
    cases h
    exact ⟨rfl, rfl, hc⟩

/-- The row array built by load_transitions is sorted by input. -/
theorem build_sorted (st : StateTemp) : RowsSorted (build_tr_inputs st) := by
  unfold RowsSorted build_tr_inputs
  refine List.Pairwise.filterMap _ ?_ (List.pairwise_lt_range _)
  intro a b hab x hx y hy
  obtain ⟨hxa, -, -⟩ := mem_build_aux st a x hx
  obtain ⟨hyb, -, -⟩ := mem_build_aux st b y hy
  rw [hxa, hyb]
  exact hab

/-- A non-null cell of the temporary array yields a row of the built
array at some index. -/
theorem build_mem (st : StateTemp) (key : Nat) (hk : key ≤ UCHAR_MAX)
    (hne : st.tr_inputs key ≠ []) :
    ∃ n, ∃ h : n < (build_tr_inputs st).length,
      (build_tr_inputs st).get ⟨n, h⟩
        = { input := key, transitions := st.tr_inputs key } := by
  have hmem : ({ input := key, transitions := st.tr_inputs key } : TrInput)
      ∈ build_tr_inputs st := by
    unfold build_tr_inputs
    rw [List.mem_filterMap]
    refine ⟨key, ?_, ?_⟩
    · rw [List.mem_range]
      omega
    · rw [if_neg hne]
  obtain ⟨n, h, hEl⟩ := List.mem_iff_getElem.mp hmem
  refine ⟨n, h, ?_⟩
  rw [List.get_eq_getElem]
  exact hEl

/-- Every row of the built array comes from a non-null cell of the
temporary array. -/
theorem build_row_src (st : StateTemp) (row : TrInput) (h : row ∈ build_tr_inputs st) :
    row.transitions = st.tr_inputs row.input ∧ st.tr_inputs row.input ≠ [] := by
  unfold build_tr_inputs at h
  rw [List.mem_filterMap] at h
  obtain ⟨i, -, hfi⟩ := h
  obtain ⟨h1, h2, h3⟩ := mem_build_aux st i row hfi
  rw [h1]
  exact ⟨h2, h3⟩

/-- Folding the insertion sequence over the temporary array accumulates,
for each input symbol, the inserted right parts in reverse order on top
of what the cell already held. -/
theorem load_temp_fold (ins : List (Nat × TrOutput)) : ∀ (st : StateTemp) (key : Nat),
    (ins.foldl
      (fun st pr => state_temp_add_transition st pr.1 pr.2.state pr.2.output pr.2.move)
      st).tr_inputs key
      = ((ins.filter (fun pr => pr.1 = key)).map Prod.snd).reverse ++ st.tr_inputs key := by
  induction ins with
  | nil => intro st key; simp
  | cons hd tl ih =>
      intro st key
      simp only [List.foldl_cons]
      rw [ih]
      by_cases hk : hd.1 = key
      · simp [List.filter_cons, hk, state_temp_add_transition]
      · simp [List.filter_cons, hk, state_temp_add_transition, Ne.symm hk]

/-- head_write changes no field of the branch other than the page chain
and head page. -/
theorem head_write_frame (hp : Heap) (b : Branch) (c : Nat) (hp1 : Heap) (b1 : Branch)
    (h : head_write hp b c = some (hp1, b1)) :
    b1.steps = b.steps ∧ b1.state = b.state ∧ b1.tr = b.tr ∧
      b1.ndParent = b.ndParent ∧ b1.headPos = b.headPos := by
  unfold head_write at h
  split at h <;> dsimp only at h
  all_goals try split at h
  all_goals try split at h
  all_goals try split at h
  all_goals
    try (simp only [Option.some.injEq, Prod.mk.injEq] at h; obtain ⟨-, h2⟩ := h; subst h2)
  all_goals first
    | simp
    | simp at h

/-- head_move changes no field of the branch other than the page chain
and head position. -/
theorem head_move_frame (hp : Heap) (b : Branch) (mv : Char) :
    (head_move hp b mv).2.steps = b.steps ∧ (head_move hp b mv).2.state = b.state ∧
      (head_move hp b mv).2.tr = b.tr ∧ (head_move hp b mv).2.ndParent = b.ndParent := by
  cases hb : b.headPage <;> simp only [head_move, hb] <;> (try split_ifs) <;> simp

/-- branch_memcpy keeps the branch's step counter. -/
theorem branch_memcpy_steps (b : Branch) (o : Option (List Page × Option Nat)) :
    (branch_memcpy b o).steps = b.steps := by
  cases o <;> rfl

/-- tm_fanout keeps the store, keeps the branch's step counter, and gives
every pushed clone the branch's step counter. -/
theorem tm_fanout_frame (tm : TM) (hp : Heap) (b : Branch) :
    (tm_fanout tm hp b).1 = hp ∧
      (tm_fanout tm hp b).2.1.steps = b.steps ∧
      (∀ x ∈ (tm_fanout tm hp b).2.2.1, x.steps = b.steps) := by
  unfold tm_fanout
  dsimp only
  split
  · exact ⟨rfl, rfl, by simp⟩
  · refine ⟨rfl, rfl, ?_⟩
    intro x hx
    simp only [List.mem_map] at hx
    obtain ⟨t, -, rfl⟩ := hx
    rfl

/-- A successful tm_step raises the branch's step counter by at most one
and gives every pushed clone the continuing branch's step counter. -/
theorem tm_step_steps (tm : TM) (hp : Heap) (b : Branch) (hp1 : Heap) (b1 : Branch)
    (cl : List Branch) (ht : Option TmState)
    (h : tm_step tm hp b = some (hp1, b1, cl, ht)) :
    b1.steps ≤ b.steps + 1 ∧ ∀ x ∈ cl, x.steps = b1.steps := by
  unfold tm_step at h
  cases htr : b.tr with
  | none =>
      rw [htr] at h
      simp only [Option.some.injEq] at h
      have hf := tm_fanout_frame tm hp b
      rw [h] at hf
      dsimp only at hf
      exact ⟨by omega, fun x hx => by rw [hf.2.2 x hx, hf.2.1]⟩
  | some tr =>
      rw [htr] at h
      dsimp only at h
      split at h
      · simp at h
      · rename_i hb hw
        simp only [Option.some.injEq] at h
        set bx := (if b.ndParent.isSome then
            { branch_memcpy b b.ndParent with ndParent := none } else b) with hbx
        have hbxs : bx.steps = b.steps := by
          rw [hbx]
          split
          · simp [branch_memcpy_steps]
          · rfl
        have hwf := head_write_frame hp { bx with state := tr.state } tr.output hb.1 hb.2 (by rw [← hw])
        have hmf := head_move_frame hb.1 hb.2 tr.move
        have hms : (head_move hb.1 hb.2 tr.move).2.steps = b.steps := by
          rw [hmf.1, hwf.1]
          exact hbxs
        have hf := tm_fanout_frame tm (head_move hb.1 hb.2 tr.move).1
          { (head_move hb.1 hb.2 tr.move).2 with
            steps := (head_move hb.1 hb.2 tr.move).2.steps + 1 }
        rw [h] at hf
        dsimp only at hf
        rw [hms] at hf
        exact ⟨by omega, fun x hx => by rw [hf.2.2 x hx, hf.2.1]⟩

/-- Membership in the queue produced by the push loop. -/
theorem mem_pushAll (cs : List Branch) : ∀ (q : List Branch) (x : Branch),
    x ∈ pushAll q cs ↔ x ∈ cs ∨ x ∈ q := by
  induction cs with
  | nil => intro q x; simp [pushAll]
  | cons c cs ih =>
      intro q x
      have hstep : pushAll q (c :: cs) = pushAll (c :: q) cs := rfl
      rw [hstep, ih]
      simp only [List.mem_cons]
      tauto

/-- Claim C9: head_read mutates neither the store nor the branch (so
neither the tape, the head position nor the page chain), allocates
nothing, and returns BLANK when the head is backed by no page. -/
theorem claim9_read_pure (hp : Heap) (b : Branch) :
    (head_read hp b).1 = hp ∧ (head_read hp b).2.1 = b ∧
      (b.headPage = none → (head_read hp b).2.2 = BLANK) := by
  cases hb : b.headPage <;> simp [head_read, hb]

/-- Witness for claim C9 at a concrete branch with no page. -/
theorem claim9_read_pure_w : (head_read ⟨[]⟩ blankBranch).2.2 = BLANK :=
  (claim9_read_pure ⟨[]⟩ blankBranch).2.2 rfl

/-- Claim C10: with no allocated page (null head_page), head_move is a
no-op for every direction: no page is allocated and the head page and
offset are unchanged. -/
theorem claim10_move_nopage (hp : Heap) (b : Branch) (mv : Char)
    (h : b.headPage = none) : head_move hp b mv = (hp, b) := by
  unfold head_move
  rw [h]

/-- Witness for claim C10 at a concrete branch with no page. -/
theorem claim10_move_nopage_w :
    head_move ⟨[]⟩ blankBranch 'L' = (⟨[]⟩, blankBranch) :=
  claim10_move_nopage ⟨[]⟩ blankBranch 'L' rfl

/-- Claim C4, failing input: for a branch with no allocated page the
symbol under the head reads as BLANK, yet writing that same symbol back
is not a no-op: head_write skips the page-fault allocation (c is BLANK)
and then dereferences the null head_page, i.e. the program crashes. -/
theorem claim4_blank_write_crash :
    (head_read ⟨[]⟩ blankBranch).2.2 = BLANK ∧
      head_write ⟨[]⟩ blankBranch BLANK = none :=
  ⟨rfl, rfl⟩

/-- Claim C3, failing input: on the machine of spec scenario S5 and the
empty input line, the run crashes (the second step writes BLANK on a
branch with no allocated page, dereferencing the null head_page), so no
verdict at all is produced, whatever the fuel. -/
theorem claim3_s5_no_verdict (fuel : Nat) : tm_run fuel tmS5 [] = none := by
  match fuel with
  | 0 => rfl
  | 1 => rfl
  | _ + 2 => rfl

/-- Claim C1, counterexample: in tmAccRow, state 1 is accepting and has
no transition on symbol 120, the symbol under the head when the branch
reaches it; the claim says the whole computation must end with ACCEPT,
but the run returns REFUSE because tm_compute_rq only accepts a halting
state with an empty row array. -/
theorem claim1_counterexample :
    (tmAccRow.states.getD 1 defState).is_acc = true ∧
      search_tr_out (tmAccRow.states.getD 1 defState).tr_inputs 0
        (((tmAccRow.states.getD 1 defState).tr_inputs.length : Int) - 1) 120 = none ∧
      tm_run 10 tmAccRow [] = some SYM_REFUSE :=
  ⟨rfl, rfl, rfl⟩

/-- Claim C8: head boundary moves.  For a branch with an allocated page
under the head: L at offset 0 of the leftmost page allocates a new
BLANK-filled leftmost page and lands at its offset PAGE_SIZE-1; R at
offset PAGE_SIZE-1 of the rightmost page allocates a new BLANK-filled
rightmost page and lands at its offset 0; a move that does not reach a
page edge changes only the offset by one; S changes nothing. -/
theorem claim8_move_boundaries (hp : Heap) (b : Branch) (i : Nat)
    (hhp : b.headPage = some i) (hlen : i < b.pages.length)
    (hpos : b.headPos < PAGE_SIZE) :
    (i = 0 ∧ b.headPos = 0 →
      head_move hp b 'L' =
        (⟨hp.bufs ++ [blankBuf]⟩,
          { b with pages := { priv := true, mem := hp.bufs.length } :: b.pages,
                   headPage := some 0, headPos := PAGE_SIZE - 1 }) ∧
      (head_move hp b 'L').1.get hp.bufs.length = List.replicate PAGE_SIZE BLANK) ∧
    (i = b.pages.length - 1 ∧ b.headPos = PAGE_SIZE - 1 →
      head_move hp b 'R' =
        (⟨hp.bufs ++ [blankBuf]⟩,
          { b with pages := b.pages ++ [({ priv := true, mem := hp.bufs.length } : Page)],
                   headPage := some (i + 1), headPos := 0 }) ∧
      (head_move hp b 'R').1.get hp.bufs.length = List.replicate PAGE_SIZE BLANK) ∧
    (b.headPos ≠ 0 → head_move hp b 'L' = (hp, { b with headPos := b.headPos - 1 })) ∧
    (b.headPos ≠ PAGE_SIZE - 1 →
      head_move hp b 'R' = (hp, { b with headPos := b.headPos + 1 })) ∧
    head_move hp b 'S' = (hp, b) := by
  refine ⟨?_, ?_, ?_, ?_, ?_⟩
  · rintro ⟨h0, hz⟩
    constructor
    · simp [head_move, hhp, h0, hz, Heap.alloc]
    · simp [head_move, hhp, h0, hz, Heap.alloc, Heap.get, blankBuf,
        List.getD_append_right]
  · rintro ⟨hl, hz⟩
    constructor
    · simp [head_move, hhp, ← hl, hz, Heap.alloc]
    · simp [head_move, hhp, ← hl, hz, Heap.alloc, Heap.get, blankBuf,
        List.getD_append_right]
  · intro hnz
    simp [head_move, hhp, hnz]
  · intro hne
    simp [head_move, hhp, hne]
  · simp [head_move, hhp]

/-- Claim C1 (amended): when the scheduled branch halts (tm_step finds no
transition on the read symbol and returns the halt state, pushing no
clone), the whole computation returns ACCEPT iff the halt state is
accepting AND has an empty row array; otherwise only that branch
terminates: the loop continues on the remaining queue without it. -/
theorem claim1_halting (tm : TM) (fuel : Nat) (hp : Heap) (b : Branch)
    (rest : List Branch) (pre : Bool) (hp1 : Heap) (b1 : Branch) (s : TmState)
    (hsteps : b.steps ≠ tm.max_steps)
    (hstep : tm_step tm hp b = some (hp1, b1, [], some s)) :
    (s.tr_inputs = [] ∧ s.is_acc = true →
        tm_compute_rq tm (fuel + 1) hp (b :: rest) pre = some SYM_ACCEPT) ∧
    (¬(s.tr_inputs = [] ∧ s.is_acc = true) →
        tm_compute_rq tm (fuel + 1) hp (b :: rest) pre
          = tm_compute_rq tm fuel hp1 rest pre) := by
  constructor
  · intro hacc
    simp only [tm_compute_rq, if_neg hsteps, hstep]
    rw [if_pos hacc]
  · intro hacc
    simp only [tm_compute_rq, if_neg hsteps, hstep]
    rw [if_neg hacc]

/-- Witness for claim C1: a concrete halting step in tmAccRow, state 1
over symbol 120, which removes just the halting branch. -/
theorem claim1_halting_w :
    tm_compute_rq tmAccRow 6 hpW [bW] false = tm_compute_rq tmAccRow 5 hpW [] false :=
  (claim1_halting tmAccRow 5 hpW bW [] false hpW bW
      { is_acc := true,
        tr_inputs := [ { input := 97,
                         transitions := [ { state := 1, output := 97, move := 'S' } ] } ] }
      (by decide) rfl).2 (by decide)

/-- Claim C6: if every queued branch satisfies 0 <= steps <= max_steps,
then the scheduled branch (the queue head) does too; a scheduled branch
with steps == max_steps is destroyed without executing any step, the
preemption flag being recorded for the verdict; and a fan-out step of a
non-preempted branch keeps the bound for every branch of the new queue. -/
theorem claim6_step_bound (tm : TM) (fuel : Nat) (hp : Heap) (b : Branch)
    (rest : List Branch) (pre : Bool)
    (hInv : ∀ x ∈ b :: rest, x.steps ≤ tm.max_steps) :
    (0 ≤ b.steps ∧ b.steps ≤ tm.max_steps) ∧
    (b.steps = tm.max_steps →
        tm_compute_rq tm (fuel + 1) hp (b :: rest) pre
          = tm_compute_rq tm fuel hp rest true) ∧
    (∀ hp1 b1 cl, b.steps ≠ tm.max_steps →
        tm_step tm hp b = some (hp1, b1, cl, none) →
        ∀ x ∈ pushAll (b1 :: rest) cl, x.steps ≤ tm.max_steps) := by
  refine ⟨⟨Nat.zero_le _, hInv b (List.mem_cons_self _ _)⟩, ?_, ?_⟩
  · intro hmax
    simp only [tm_compute_rq, if_pos hmax]
  · intro hp1 b1 cl hne hstep x hx
    obtain ⟨hb1, hcl⟩ := tm_step_steps tm hp b hp1 b1 cl none hstep
    have hble : b.steps ≤ tm.max_steps := hInv b (List.mem_cons_self _ _)
    have hblt : b.steps < tm.max_steps := lt_of_le_of_ne hble hne
    rcases (mem_pushAll cl (b1 :: rest) x).mp hx with hxc | hxq
    · rw [hcl x hxc]
      omega
    · rcases List.mem_cons.mp hxq with rfl | hxr
      · omega
      · exact hInv x (List.mem_cons_of_mem _ hxr)

/-- Witness for claim C6: with max_steps 0 the root branch is preempted
at once and the preemption recorded. -/
theorem claim6_step_bound_w :
    tm_compute_rq tmZero 1 ⟨[]⟩ [blankBranch] false
      = tm_compute_rq tmZero 0 ⟨[]⟩ [] true :=
  (claim6_step_bound tmZero 0 ⟨[]⟩ blankBranch [] false
      (by intro x hx; rw [List.mem_singleton] at hx; subst hx; exact Nat.le_refl 0)).2.1 rfl

/-- Witness for claim C8: the left-edge fault at a concrete one-page
branch. -/
theorem claim8_move_boundaries_w :
    head_move hpOne bOne 'L' =
      (⟨hpOne.bufs ++ [blankBuf]⟩,
        { bOne with pages := { priv := true, mem := hpOne.bufs.length } :: bOne.pages,
                    headPage := some 0, headPos := PAGE_SIZE - 1 }) ∧
    (head_move hpOne bOne 'L').1.get hpOne.bufs.length = List.replicate PAGE_SIZE BLANK :=
  (claim8_move_boundaries hpOne bOne 0 rfl (by decide) (by decide)).1 ⟨rfl, rfl⟩

/-- Claim C5: copy-on-write isolation.  When a branch writes a different
symbol through head_write onto a page whose memory is not private, the
shared buffer is first copied into a fresh private buffer
(page_make_private) and only the copy is mutated: the store keeps every
pre-existing buffer intact, the writer's page now points at the fresh
private copy, and the symbol read by any other branch whose pages
reference pre-existing buffers is unchanged. -/
theorem claim5_cow_isolation (hp : Heap) (b : Branch) (c : Nat) (i : Nat)
    (hi : i < b.pages.length) (hhp : b.headPage = some i)
    (hpriv : (b.pages.get ⟨i, hi⟩).priv = false)
    (hneq : (hp.get (b.pages.get ⟨i, hi⟩).mem).getD b.headPos BLANK ≠ c) :
    ∃ hp1 b1, head_write hp b c = some (hp1, b1) ∧
      hp1.bufs.length = hp.bufs.length + 1 ∧
      (∀ j, j < hp.bufs.length → hp1.get j = hp.get j) ∧
      hp1.get hp.bufs.length = (hp.get (b.pages.get ⟨i, hi⟩).mem).set b.headPos c ∧
      b1 = { b with pages := b.pages.set i { priv := true, mem := hp.bufs.length } } ∧
      (∀ b2 : Branch, (∀ pg ∈ b2.pages, pg.mem < hp.bufs.length) →
          (∀ j, b2.headPage = some j → j < b2.pages.length) →
          (head_read hp1 b2).2.2 = (head_read hp b2).2.2) := by
  have hw : head_write hp b c =
      some ((hp.alloc (hp.get (b.pages.get ⟨i, hi⟩).mem)).1.setBuf hp.bufs.length
              (((hp.alloc (hp.get (b.pages.get ⟨i, hi⟩).mem)).1.get hp.bufs.length).set
                b.headPos c),
            { b with pages := b.pages.set i { priv := true, mem := hp.bufs.length } }) := by
    have hneq2 : ¬((hp.get b.pages[i].mem)[b.headPos]?.getD BLANK = c) := by
      rw [← List.getD_eq_getElem?_getD]
      simpa [List.get_eq_getElem] using hneq
    have hpriv2 : b.pages[i].priv = false := by
      simpa [List.get_eq_getElem] using hpriv
    have hsome : b.pages[i]? = some b.pages[i] := List.getElem?_eq_getElem hi
    simp [head_write, hhp, hsome, hneq2, hpriv2, Heap.alloc, List.get_eq_getElem]
  have hlen1 :
      ((hp.alloc (hp.get (b.pages.get ⟨i, hi⟩).mem)).1.setBuf hp.bufs.length
        (((hp.alloc (hp.get (b.pages.get ⟨i, hi⟩).mem)).1.get hp.bufs.length).set
          b.headPos c)).bufs.length = hp.bufs.length + 1 := by
    simp [Heap.setBuf, Heap.alloc]
  have hpres : ∀ j, j < hp.bufs.length →
      ((hp.alloc (hp.get (b.pages.get ⟨i, hi⟩).mem)).1.setBuf hp.bufs.length
        (((hp.alloc (hp.get (b.pages.get ⟨i, hi⟩).mem)).1.get hp.bufs.length).set
          b.headPos c)).get j = hp.get j := by
    intro j hj
    simp only [Heap.setBuf, Heap.get, Heap.alloc]
    rw [getD_set_ne _ _ _ _ _ (by omega)]
    exact List.getD_append _ _ _ _ hj
  have hfresh :
      ((hp.alloc (hp.get (b.pages.get ⟨i, hi⟩).mem)).1.setBuf hp.bufs.length
        (((hp.alloc (hp.get (b.pages.get ⟨i, hi⟩).mem)).1.get hp.bufs.length).set
          b.headPos c)).get hp.bufs.length
        = (hp.get (b.pages.get ⟨i, hi⟩).mem).set b.headPos c := by
    rw [Heap.get_alloc_self]
    simp only [Heap.setBuf, Heap.get, Heap.alloc]
    exact getD_set_self _ _ _ _ (by simp)
  refine ⟨_, _, hw, hlen1, hpres, hfresh, rfl, ?_⟩
  intro b2 hmem hhead
  cases hb2 : b2.headPage with
  | none => simp [head_read, hb2]
  | some j =>
      have hj : j < b2.pages.length := hhead j hb2
      have hpg : b2.pages.getD j { priv := true, mem := 0 } = b2.pages.get ⟨j, hj⟩ := by
        rw [List.getD_eq_getElem _ _ hj, List.get_eq_getElem]
      have hmlt : (b2.pages.get ⟨j, hj⟩).mem < hp.bufs.length :=
        hmem _ (List.get_mem _ _ _)
      simp only [head_read, hb2, hpg]
      rw [hpres _ hmlt]

/-- Claim C7: for a row array sorted in ascending order by input symbol
(hence unique by input), search_tr_out over the whole array returns the
stored successor list of the row whose input equals the key when such a
row exists, and null when no row matches. -/
theorem claim7_search_correct (v : List TrInput) (key : Nat) (hv : RowsSorted v) :
    (∀ i : Int, 0 ≤ i → i < (v.length : Int) → (idxTI v i).input = key →
        search_tr_out v 0 ((v.length : Int) - 1) key = some (idxTI v i).transitions) ∧
    ((∀ i : Int, 0 ≤ i → i < (v.length : Int) → (idxTI v i).input ≠ key) →
        search_tr_out v 0 ((v.length : Int) - 1) key = none) := by
  constructor
  · intro i h0 hlt hkey
    unfold search_tr_out
    exact search_go_found v key _ 0 _ i hv (by omega) (by omega) (by omega) h0
      (by omega) hkey
  · intro hno
    unfold search_tr_out
    exact search_go_none v key _ 0 _ (fun j h1 h2 => hno j h1 (by omega)) (by omega)

/-- Witness for claim C7: lookup in a concrete sorted two-row array finds
the second row. -/
theorem claim7_search_correct_w :
    search_tr_out vRows 0 ((vRows.length : Int) - 1) 98
      = some (idxTI vRows 1).transitions :=
  (claim7_search_correct vRows 98 (by unfold RowsSorted; decide)).1 1
    (by decide) (by decide) (by decide)

/-- Claim C2, counterexample: inserting two transitions for the same
(state, symbol) pair and looking the pair up afterwards returns them in
the opposite of insertion order, because state_temp_add_transition
prepends to the successor list. -/
theorem claim2_counterexample :
    search_tr_out (build_tr_inputs (load_temp insPair)) 0
        (((build_tr_inputs (load_temp insPair)).length : Int) - 1) 97
      = some [ { state := 2, output := 98, move := 'L' },
               { state := 1, output := 97, move := 'R' } ] ∧
    ([ { state := 2, output := 98, move := 'L' },
       { state := 1, output := 97, move := 'R' } ] : List TrOutput)
      ≠ [ { state := 1, output := 97, move := 'R' },
          { state := 2, output := 98, move := 'L' } ] :=
  ⟨rfl, by decide⟩

/-- Claim C2 (amended): for every insertion sequence for one state and
every byte-valued symbol, lookup after loading returns exactly the
REVERSE of the sequence of right parts inserted for that symbol (and
null when none was inserted): head insertion in state_temp_add_transition
reverses the order and load_transitions copies the lists verbatim into
the sorted row array that search_tr_out consults. -/
theorem claim2_lookup_reverse_insertion (ins : List (Nat × TrOutput)) (key : Nat)
    (hk : key ≤ UCHAR_MAX) :
    search_tr_out (build_tr_inputs (load_temp ins)) 0
        (((build_tr_inputs (load_temp ins)).length : Int) - 1) key
      = (if ((ins.filter (fun pr => pr.1 = key)).map Prod.snd).reverse = [] then none
         else some ((ins.filter (fun pr => pr.1 = key)).map Prod.snd).reverse) := by
  have hcell : (load_temp ins).tr_inputs key
      = ((ins.filter (fun pr => pr.1 = key)).map Prod.snd).reverse := by
    unfold load_temp
    rw [load_temp_fold]
    simp [emptyTemp]
  by_cases hne : (load_temp ins).tr_inputs key = []
  · rw [if_pos (by rw [← hcell]; exact hne)]
    unfold search_tr_out
    apply search_go_none
    · intro j h1 h2
      have hj : j.toNat < (build_tr_inputs (load_temp ins)).length := by omega
      rw [idxTI_eq_get _ _ hj]
      intro hkey
      have hsrc := build_row_src (load_temp ins) _ (List.get_mem _ _ hj)
      rw [hkey] at hsrc
      exact hsrc.2 hne
    · omega
  · obtain ⟨n, h, hEl⟩ := build_mem (load_temp ins) key hk hne
    have hfind : search_tr_out (build_tr_inputs (load_temp ins)) 0
        (((build_tr_inputs (load_temp ins)).length : Int) - 1) key
        = some (idxTI (build_tr_inputs (load_temp ins)) (n : Int)).transitions := by
      unfold search_tr_out
      apply search_go_found _ _ _ _ _ (n : Int) (build_sorted _) (by omega) (by omega)
        (by omega) (by omega) (by omega)
      rw [idxTI_eq_get _ _ (by simpa using h)]
      simp only [Int.toNat_natCast]
      rw [hEl]
    rw [hfind, if_neg (by rw [← hcell]; exact hne),
      idxTI_eq_get _ _ (by simpa using h)]
    simp only [Int.toNat_natCast]
    rw [hEl, ← hcell]

/-- Witness for claim C2 at the concrete two-element insertion sequence
and symbol 97. -/
theorem claim2_lookup_reverse_insertion_w :
    search_tr_out (build_tr_inputs (load_temp insPair)) 0
        (((build_tr_inputs (load_temp insPair)).length : Int) - 1) 97
      = (if ((insPair.filter (fun pr => pr.1 = 97)).map Prod.snd).reverse = [] then none
         else some ((insPair.filter (fun pr => pr.1 = 97)).map Prod.snd).reverse) :=
  claim2_lookup_reverse_insertion insPair 97 (by decide)

/-- Witness for claim C5: a concrete branch whose single page shares
buffer 0 writes symbol 120 over the BLANK under its head. -/
theorem claim5_cow_isolation_w :
    ∃ hp1 b1, head_write hpOne bShared 120 = some (hp1, b1) ∧
      hp1.bufs.length = hpOne.bufs.length + 1 ∧
      (∀ j, j < hpOne.bufs.length → hp1.get j = hpOne.get j) ∧
      hp1.get hpOne.bufs.length
        = (hpOne.get (bShared.pages.get ⟨0, by decide⟩).mem).set bShared.headPos 120 ∧
      b1 = { bShared with
              pages := bShared.pages.set 0 { priv := true, mem := hpOne.bufs.length } } ∧
      (∀ b2 : Branch, (∀ pg ∈ b2.pages, pg.mem < hpOne.bufs.length) →
          (∀ j, b2.headPage = some j → j < b2.pages.length) →
          (head_read hp1 b2).2.2 = (head_read hpOne b2).2.2) :=
  claim5_cow_isolation hpOne bShared 120 0 (by decide) rfl (by decide) (by decide)

end TmSim
